import Mathlib

set_option maxHeartbeats 1000000

/-!
Verification of the icon-metadata generator in icons/icons.go.

Go strings are modelled as lists of Unicode scalar values (`GoStr`), one entry
per rune; the scraped provider codes and titles are ASCII, and the case
mappings below are the ASCII fragment of the Unicode tables Go uses.  Network
interactions (the enrichment service, the iconify search endpoint) and the
uuid generator are modelled as explicit oracle parameters, so every function
below is a pure translation of the corresponding Go function.
-/

namespace IconsData

/-- Go strings, modelled as lists of runes. -/
abbrev GoStr := List Char

/-- Embed a Lean string literal as a Go string value. -/
def str (s : String) : GoStr := s.data

/-- unicode.IsSpace on the Latin-1 range (the fragment strings.TrimSpace and
strings.Fields test on the data handled here). -/
def goIsSpace (c : Char) : Bool :=
  c.toNat == 9 || c.toNat == 10 || c.toNat == 11 || c.toNat == 12 ||
  c.toNat == 13 || c.toNat == 32 || c.toNat == 133 || c.toNat == 160

/-- strings.TrimSpace: drop whitespace runes from both ends. -/
def goTrimSpace (s : GoStr) : GoStr :=
  ((s.dropWhile goIsSpace).reverse.dropWhile goIsSpace).reverse

/-- Worker for strings.Fields; the fuel argument is always at least the length
of the remaining input, so it never runs out. -/
def goFieldsAux : Nat → GoStr → List GoStr
  | 0, _ => []
  | _, [] => []
  | fuel + 1, c :: cs =>
    if goIsSpace c then goFieldsAux fuel cs
    else (c :: cs.takeWhile (fun d => !goIsSpace d)) ::
      goFieldsAux fuel (cs.dropWhile (fun d => !goIsSpace d))

/-- strings.Fields: the maximal whitespace-free substrings, in order. -/
def goFields (s : GoStr) : List GoStr := goFieldsAux s.length s

/-- strings.ReplaceAll for a single-rune pattern and replacement (the only
shape the generator uses: the separators "_", "-", " "). -/
def replaceChar (a b : Char) (s : GoStr) : GoStr :=
  s.map (fun c => if c = a then b else c)

/-- Loop body of cleanDisplayName: upper-case the first rune of a word,
lower-case the rest.  (The Go source slices word[0], the first byte; on the
ASCII titles handled here that is the first rune.) -/
def capWord (w : GoStr) : GoStr :=
  match w with
  | [] => []
  | c :: cs => c.toUpper :: cs.map Char.toLower

/-- strings.Join(words, " "). -/
def goJoin : List GoStr → GoStr
  | [] => []
  | [w] => w
  | w :: x :: ws => w ++ ' ' :: goJoin (x :: ws)

/-- cleanDisplayName from icons.go: trim, replace "_" and "-" by spaces, split
into fields, capitalize each word, join with single spaces. -/
def cleanDisplayName (title : GoStr) : GoStr :=
  goJoin ((goFields (replaceChar '-' ' ' (replaceChar '_' ' ' (goTrimSpace title)))).map capWord)

/-- The display-name computation as the specification phrases it: replace
underscores and hyphens with spaces, then capitalize each whitespace-separated
word and join the words with single spaces (no initial trim step). -/
def cleanDisplayNameSpec (title : GoStr) : GoStr :=
  goJoin ((goFields (replaceChar '-' ' ' (replaceChar '_' ' ' title))).map capWord)

/-- The runes kept by the regexp deletion ReplaceAllString over [^a-z0-9-]. -/
def isSlugChar (c : Char) : Bool :=
  (decide ('a' ≤ c) && decide (c ≤ 'z')) ||
  (decide ('0' ≤ c) && decide (c ≤ '9')) || c == '-'

/-- strings.ToLower over a whole string (ASCII fragment). -/
def goToLowerStr (s : GoStr) : GoStr := s.map Char.toLower

/-- strings.ToUpper over a whole string (ASCII fragment). -/
def goToUpperStr (s : GoStr) : GoStr := s.map Char.toUpper

/-- The title sanitization shared by generateSlug and the verifyIconifyID
fallback: spaces to hyphens, lower-case, delete everything outside
[a-z0-9-]. -/
def sanitizeTitle (title : GoStr) : GoStr :=
  (goToLowerStr (replaceChar ' ' '-' title)).filter isSlugChar

/-- generateSlug from icons.go: Sprintf("%s-%s", ToLower(provider), clean). -/
def generateSlug (provider title : GoStr) : GoStr :=
  goToLowerStr provider ++ '-' :: sanitizeTitle title

/-- determineDefaultWidth from icons.go. -/
def determineDefaultWidth (category : GoStr) : Nat :=
  if category = str "network" ∨ category = str "container" then 128
  else if category = str "storage" ∨ category = str "database" then 96
  else 64

/-- Whether the pattern matches at the head of the text. -/
def matchesAt : GoStr → GoStr → Bool
  | [], _ => true
  | _ :: _, [] => false
  | a :: as, b :: bs => a == b && matchesAt as bs

/-- strings.Contains(text, sub): the pattern matches at some position. -/
def goContains (sub : GoStr) : GoStr → Bool
  | [] => matchesAt sub []
  | c :: cs => matchesAt sub (c :: cs) || goContains sub cs

/-- The keys of the popularServices map in icons.go. -/
def popularServices : List GoStr :=
  [str "ec2", str "s3", str "lambda", str "rds", str "dynamodb",
   str "vpc", str "eks", str "ecs", str "kubernetes", str "docker"]

/-- calculatePopularity from icons.go.  The Go loop walks the map in an
arbitrary iteration order but returns 1.0 on any hit, so it computes this
order-independent value; float32 represents 1.0 and 0.5 exactly, modelled
in ℚ. -/
def calculatePopularity (title : GoStr) : ℚ :=
  if popularServices.any (fun s => goContains s (goToLowerStr title)) then 1 else 1 / 2

/-- The provider → display-name table of getFullProviderName. -/
def providerMap : List (GoStr × GoStr) :=
  [(str "AWS", str "Amazon Web Services"), (str "AZURE", str "Microsoft Azure"),
   (str "GCP", str "Google Cloud Platform"), (str "ESSENTIALS", str "Essential Icons"),
   (str "DEV", str "Development Tools"), (str "INFRA", str "Infrastructure"),
   (str "TECH", str "Technology"), (str "SOCIAL", str "Social Media"),
   (str "EMOTIONS", str "Emojis")]

/-- isSeparator as used by strings.Title (ASCII fragment): letters, digits and
underscore continue a word, anything else separates. -/
def goIsSeparator (c : Char) : Bool := !(c.isAlphanum || c == '_')

/-- Worker for strings.Title, tracking whether the previous rune separates. -/
def goTitleAux : Bool → GoStr → GoStr
  | _, [] => []
  | prevSep, c :: cs => (if prevSep then c.toUpper else c) :: goTitleAux (goIsSeparator c) cs

/-- strings.Title (ASCII fragment): upper-case every rune beginning a word. -/
def goTitleCase (s : GoStr) : GoStr := goTitleAux true s

/-- getFullProviderName from icons.go: table lookup on the upper-cased code,
with a title-cased fallback. -/
def getFullProviderName (provider : GoStr) : GoStr :=
  match providerMap.lookup (goToUpperStr provider) with
  | some fullName => fullName
  | none => goTitleCase (goToLowerStr provider)

/-- Lower-case hexadecimal digit, as encoding/json emits in \u escapes. -/
def toHexDigit (n : Nat) : Char :=
  if n < 10 then Char.ofNat (48 + n) else Char.ofNat (87 + n)

/-- Four-digit hexadecimal rendering of n (n < 65536 at every use site). -/
def toHex4 (n : Nat) : GoStr :=
  [toHexDigit (n / 4096 % 16), toHexDigit (n / 256 % 16),
   toHexDigit (n / 16 % 16), toHexDigit (n % 16)]

/-- One rune of encoding/json string encoding with HTML escaping on (the
json.Marshal default, which arrayToJSON uses): quotes and backslashes get
two-character escapes, '<' '>' '&' and control runes get \u escapes (with
short forms for \n \r \t), U+2028/U+2029 get \u escapes, everything else is
emitted literally. -/
def encodeChar (c : Char) : GoStr :=
  if c = '"' then ['\\', '"']
  else if c = '\\' then ['\\', '\\']
  else if c = '<' ∨ c = '>' ∨ c = '&' then '\\' :: 'u' :: toHex4 c.toNat
  else if c.toNat < 32 then
    if c.toNat = 10 then ['\\', 'n']
    else if c.toNat = 13 then ['\\', 'r']
    else if c.toNat = 9 then ['\\', 't']
    else '\\' :: 'u' :: toHex4 c.toNat
  else if c.toNat = 8232 ∨ c.toNat = 8233 then '\\' :: 'u' :: toHex4 c.toNat
  else [c]

/-- encoding/json rendering of one Go string. -/
def encodeString (s : GoStr) : GoStr := '"' :: s.flatMap encodeChar ++ ['"']

/-- Comma-separated renderings of the array elements. -/
def encodeElems : List GoStr → GoStr
  | [] => []
  | [x] => encodeString x
  | x :: y :: ys => encodeString x ++ ',' :: encodeElems (y :: ys)

/-- arrayToJSON from icons.go: "[]" for an empty (or nil) slice, otherwise
json.Marshal of the slice of strings. -/
def arrayToJSON (arr : List GoStr) : GoStr :=
  if arr = [] then str "[]" else '[' :: encodeElems arr ++ [']']

/-- Value of one hexadecimal digit rune, upper or lower case. -/
def fromHexDigit (c : Char) : Option Nat :=
  if 48 ≤ c.toNat ∧ c.toNat ≤ 57 then some (c.toNat - 48)
  else if 97 ≤ c.toNat ∧ c.toNat ≤ 102 then some (c.toNat - 87)
  else if 65 ≤ c.toNat ∧ c.toNat ≤ 70 then some (c.toNat - 55)
  else none

/-- Value of a four-digit hexadecimal escape body. -/
def hex4Val (h3 h2 h1 h0 : Char) : Option Nat :=
  match fromHexDigit h3, fromHexDigit h2, fromHexDigit h1, fromHexDigit h0 with
  | some a, some b, some c, some d => some (a * 4096 + b * 256 + c * 16 + d)
  | _, _, _, _ => none

/-- JSON string-body decoder: the input starts after the opening quote; returns
the decoded rune list and the input following the closing quote. -/
def decodeStringBody : GoStr → Option (GoStr × GoStr)
  | [] => none
  | c :: rest =>
    if c = '"' then some ([], rest)
    else if c = '\\' then
      match rest with
      | [] => none
      | e :: rest1 =>
        if e = '"' ∨ e = '\\' ∨ e = '/' then
          (decodeStringBody rest1).map (fun p => (e :: p.1, p.2))
        else if e = 'b' then (decodeStringBody rest1).map (fun p => (Char.ofNat 8 :: p.1, p.2))
        else if e = 'f' then (decodeStringBody rest1).map (fun p => (Char.ofNat 12 :: p.1, p.2))
        else if e = 'n' then (decodeStringBody rest1).map (fun p => (Char.ofNat 10 :: p.1, p.2))
        else if e = 'r' then (decodeStringBody rest1).map (fun p => (Char.ofNat 13 :: p.1, p.2))
        else if e = 't' then (decodeStringBody rest1).map (fun p => (Char.ofNat 9 :: p.1, p.2))
        else if e = 'u' then
          match rest1 with
          | h3 :: h2 :: h1 :: h0 :: rest2 =>
            match hex4Val h3 h2 h1 h0 with
            | some n =>
              if n < 55296 ∨ 57344 ≤ n then
                (decodeStringBody rest2).map (fun p => (Char.ofNat n :: p.1, p.2))
              else none
            | none => none
          | _ => none
        else none
    else (decodeStringBody rest).map (fun p => (c :: p.1, p.2))

/-- Decoder for a comma-separated sequence of JSON strings up to the closing
bracket; fuel bounds the number of elements. -/
def decodeElemsF : Nat → GoStr → Option (List GoStr × GoStr)
  | 0, _ => none
  | fuel + 1, s =>
    match s with
    | '"' :: rest =>
      match decodeStringBody rest with
      | some (x, r) =>
        match r with
        | ',' :: r2 =>
          match decodeElemsF fuel r2 with
          | some (xs, r3) => some (x :: xs, r3)
          | none => none
        | ']' :: r2 => some ([x], r2)
        | _ => none
      | none => none
    | _ => none

/-- JSON decoder for an array of strings, accepting the grammar json.Marshal
emits and requiring the whole input to be consumed. -/
def decodeArray (s : GoStr) : Option (List GoStr) :=
  if s = str "[]" then some []
  else
    match s with
    | '[' :: rest =>
      match decodeElemsF (rest.length + 1) rest with
      | some (xs, r) => if r = [] then some xs else none
      | none => none
    | _ => none

/-- PendingIcon from icons.go. -/
structure PendingIcon where
  category : GoStr
  title : GoStr
  link : GoStr
  displayName : GoStr
deriving DecidableEq

/-- LLMEnrichmentResponse from icons.go. -/
structure LLMEnrichmentResponse where
  category : GoStr
  aliases : List GoStr
  technicalIntent : GoStr
  semanticProfile : GoStr
  tags : List GoStr
  shapeType : GoStr
  isContainer : Bool
  brandColor : GoStr
deriving DecidableEq

/-- The Go zero value of LLMEnrichmentResponse, produced by every enrichment
fallback path. -/
def zeroEnrichment : LLMEnrichmentResponse :=
  { category := [], aliases := [], technicalIntent := [], semanticProfile := [],
    tags := [], shapeType := [], isContainer := false, brandColor := [] }

/-- IconifySearchResult from icons.go (the decoded search response). -/
structure IconifySearchResult where
  icons : List GoStr
  total : Int
deriving DecidableEq

/-- BatchClassifyResponse from icons.go.  The float64 processing-time field is
inert metadata; it is modelled in ℚ. -/
structure BatchClassifyResponse where
  results : List LLMEnrichmentResponse
  total : Int
  processingTimeMs : ℚ
deriving DecidableEq

/-- Outcome of the single HTTP exchange batchEnrichIcons performs: a transport
error, or a response with a status code and a body that either decodes to a
BatchClassifyResponse or fails to decode (none). -/
inductive BatchHttp where
  | transportErr : BatchHttp
  | response (status : Nat) (body : Option BatchClassifyResponse) : BatchHttp
deriving DecidableEq

/-- Environment of one batchEnrichIcons call: whether json.Marshal and request
construction succeed, and the network outcome. -/
structure BatchEnv where
  marshalOk : Bool
  requestOk : Bool
  http : BatchHttp
deriving DecidableEq

/-- batchEnrichIcons from icons.go.  Every failure path returns a slice of
zero-valued results sized to the chunk; the success path returns the decoded
results verbatim.  The second component counts HTTP requests issued (the
serialization and request-construction failures return before any request;
no path issues more than one). -/
def batchEnrichIcons (pending : List PendingIcon) (env : BatchEnv) :
    List LLMEnrichmentResponse × Nat :=
  if env.marshalOk = false then (List.replicate pending.length zeroEnrichment, 0)
  else if env.requestOk = false then (List.replicate pending.length zeroEnrichment, 0)
  else
    match env.http with
    | BatchHttp.transportErr => (List.replicate pending.length zeroEnrichment, 1)
    | BatchHttp.response status body =>
      if status ≠ 200 then (List.replicate pending.length zeroEnrichment, 1)
      else
        match body with
        | none => (List.replicate pending.length zeroEnrichment, 1)
        | some resp => (resp.results, 1)

/-- The fallback query loop of verifyIconifyID: first query whose response
reports a positive total and a non-empty icon list wins. -/
def tryQueries (search : GoStr → Option IconifySearchResult) : List GoStr → Option GoStr
  | [] => none
  | q :: qs =>
    match search q with
    | some r =>
      match r.icons with
      | i :: _ => if 0 < r.total then some i else tryQueries search qs
      | [] => tryQueries search qs
    | none => tryQueries search qs

/-- verifyIconifyID from icons.go; search is the oracle for one GET against the
iconify search endpoint (none models a transport or unmarshal failure). -/
def verifyIconifyID (search : GoStr → Option IconifySearchResult)
    (provider title slug : GoStr) : GoStr :=
  match tryQueries search [provider ++ ' ' :: title, title, slug] with
  | some icon => icon
  | none => str "logos:" ++ goToLowerStr provider ++ '-' :: sanitizeTitle title

/-- The query q failed or returned no hit (zero total or empty icon list). -/
def noHit (search : GoStr → Option IconifySearchResult) (q : GoStr) : Prop :=
  search q = none ∨ ∃ r, search q = some r ∧ (r.total ≤ 0 ∨ r.icons = [])

/-- The fixed source root of icons.go. -/
def sourceURL : GoStr := str "https://icons.terrastruct.com"

/-- IconPayload from icons.go. -/
structure IconPayload where
  id : GoStr
  slug : GoStr
  iconifyID : GoStr
  provider : GoStr
  url : GoStr
  semanticProfile : GoStr
  displayName : GoStr
  aliases : GoStr
  description : GoStr
  technicalIntent : GoStr
  shapeType : GoStr
  defaultWidth : Nat
  isContainer : Bool
  iconPosition : GoStr
  colorTheme : GoStr
  popularity : ℚ
  tags : GoStr
  lastScraped : GoStr
deriving DecidableEq

/-- createIconPayload from icons.go; id stands for the uuid.New().String()
value and search for the iconify endpoint used by verifyIconifyID. -/
def createIconPayload (search : GoStr → Option IconifySearchResult) (id : GoStr)
    (provider title link displayName : GoStr) (enrichment : LLMEnrichmentResponse)
    (timestamp : GoStr) : IconPayload :=
  { id := id
    slug := generateSlug provider title
    iconifyID := verifyIconifyID search provider title (generateSlug provider title)
    provider := getFullProviderName provider
    url := sourceURL ++ '/' :: link
    semanticProfile := enrichment.semanticProfile
    displayName := displayName
    aliases := arrayToJSON enrichment.aliases
    description := displayName ++ str " from " ++ provider ++ str ". " ++ enrichment.technicalIntent
    technicalIntent := enrichment.technicalIntent
    shapeType := enrichment.shapeType
    defaultWidth := determineDefaultWidth enrichment.category
    isContainer := enrichment.isContainer
    iconPosition := if enrichment.isContainer then str "top-left" else str "center"
    colorTheme := enrichment.brandColor
    popularity := calculatePopularity title
    tags := arrayToJSON enrichment.tags
    lastScraped := timestamp }

/-- Environment of one Generate run: the configuration constants, the health
check result, the network oracles and the uuid stream (ids n is the n-th
uuid.New().String() value of the run). -/
structure GenEnv where
  useLLMEnrichment : Bool
  useBatchProcessing : Bool
  llmServiceAvailable : Bool
  search : GoStr → Option IconifySearchResult
  batchNet : List PendingIcon → BatchEnv
  singleEnrich : PendingIcon → LLMEnrichmentResponse
  ids : Nat → GoStr
  timestamp : GoStr

/-- The batchSize constant of icons.go. -/
def batchSize : Nat := 5

/-- Worker for the batch loop bounds i, i+batchSize, ...; fuel is always at
least the length of the remaining input. -/
def batchChunksAux {α : Type} : Nat → List α → List (List α)
  | 0, _ => []
  | _, [] => []
  | fuel + 1, c :: cs => ((c :: cs).take batchSize) :: batchChunksAux fuel ((c :: cs).drop batchSize)

/-- The slices pendingIcons[i:end] visited by the batch loop of Generate. -/
def batchChunks {α : Type} (l : List α) : List (List α) := batchChunksAux l.length l

/-- The inner loop of the batch branch of Generate: position j of the chunk is
paired with enrichments[j] when j is in range and with the zero value
otherwise, and assembled by createIconPayload. -/
def assembleChunk (env : GenEnv) (start : Nat) (chunk : List PendingIcon)
    (enrichments : List LLMEnrichmentResponse) : List IconPayload :=
  chunk.enum.map (fun jp =>
    createIconPayload env.search (env.ids (start + jp.1)) jp.2.category jp.2.title
      jp.2.link jp.2.displayName (enrichments.getD jp.1 zeroEnrichment) env.timestamp)

/-- The batch branch of Generate: one batchEnrichIcons call per chunk, then
per-chunk assembly; start indexes the uuid stream. -/
def assembleBatches (env : GenEnv) : Nat → List (List PendingIcon) → List IconPayload
  | _, [] => []
  | start, c :: cs =>
    assembleChunk env start c (batchEnrichIcons c (env.batchNet c)).1 ++
    assembleBatches env (start + c.length) cs

/-- The enrichment-and-assembly phase of Generate (lines 182-219 of icons.go),
producing allIcons in order.  The batch branch runs only when enrichment is on,
the health check succeeded and batch mode is configured; otherwise each icon is
processed individually, with the zero enrichment whenever enrichment is off or
the service is unavailable. -/
def generatePayloads (env : GenEnv) (pending : List PendingIcon) : List IconPayload :=
  if env.useLLMEnrichment && env.llmServiceAvailable && env.useBatchProcessing then
    assembleBatches env 0 (batchChunks pending)
  else
    pending.enum.map (fun np =>
      createIconPayload env.search (env.ids np.1) np.2.category np.2.title np.2.link
        np.2.displayName
        (if env.useLLMEnrichment && env.llmServiceAvailable then env.singleEnrich np.2
         else zeroEnrichment)
        env.timestamp)

/-- Sample pending icon for witnesses. -/
def samplePending : PendingIcon :=
  { category := str "AWS", title := str "ec2_instance", link := str "aws%ec2",
    displayName := str "Ec2 Instance" }

/-- Sample search oracle that always fails. -/
def searchNone : GoStr → Option IconifySearchResult := fun _ => none

/-- Sample search oracle hitting only on the query "AWS ec2". -/
def searchHitAws : GoStr → Option IconifySearchResult := fun q =>
  if q = str "AWS ec2" then some { icons := [str "logos:aws-ec2"], total := 3 } else none

/-- Sample run environment with enrichment disabled and an injective uuid
stream. -/
def sampleEnv : GenEnv :=
  { useLLMEnrichment := false
    useBatchProcessing := true
    llmServiceAvailable := false
    search := searchNone
    batchNet := fun _ => { marshalOk := true, requestOk := true, http := BatchHttp.transportErr }
    singleEnrich := fun _ => zeroEnrichment
    ids := fun n => List.replicate n 'x'
    timestamp := str "2020-01-01T00:00:00Z" }

/-- Sample failing batch environment (serialization failure). -/
def sampleBatchEnvFail : BatchEnv :=
  { marshalOk := false, requestOk := true, http := BatchHttp.transportErr }

/-- Sample enrichment value distinct from the zero value. -/
def sampleEnrichment : LLMEnrichmentResponse :=
  { category := str "compute", aliases := [str "vm"], technicalIntent := str "compute",
    semanticProfile := str "aws.ec2", tags := [str "aws"], shapeType := str "image",
    isContainer := false, brandColor := str "#f90" }

/-- The single payload the sample run produces from samplePending. -/
def sampleZeroIcon : IconPayload :=
  createIconPayload sampleEnv.search (sampleEnv.ids 0) samplePending.category
    samplePending.title samplePending.link samplePending.displayName zeroEnrichment
    sampleEnv.timestamp

/-! Character kit: the case mappings move runes into known ASCII ranges. -/

theorem toNat_ofNat_lt (n : Nat) (h : n < 55296) : (Char.ofNat n).toNat = n := by
  unfold Char.ofNat
  rw [dif_pos (Or.inl h)]
  unfold Char.ofNatAux
  simp [Char.toNat, UInt32.toNat, BitVec.toNat_ofNatLt]

theorem toUpper_cases (c : Char) :
    c.toUpper = c ∨ (65 ≤ c.toUpper.toNat ∧ c.toUpper.toNat ≤ 90) := by
  unfold Char.toUpper
  by_cases h : c.toNat ≥ 97 ∧ c.toNat ≤ 122
  · right
    rw [if_pos h]
    rw [toNat_ofNat_lt (c.toNat - 32) (by omega)]
    omega
  · left; rw [if_neg h]

theorem toLower_cases (c : Char) :
    c.toLower = c ∨ (97 ≤ c.toLower.toNat ∧ c.toLower.toNat ≤ 122) := by
  unfold Char.toLower
  by_cases h : c.toNat ≥ 65 ∧ c.toNat ≤ 90
  · right
    rw [if_pos h]
    rw [toNat_ofNat_lt (c.toNat + 32) (by omega)]
    omega
  · left; rw [if_neg h]

theorem goIsSpace_eq_false_iff (c : Char) :
    goIsSpace c = false ↔
      ¬(c.toNat = 9 ∨ c.toNat = 10 ∨ c.toNat = 11 ∨ c.toNat = 12 ∨
        c.toNat = 13 ∨ c.toNat = 32 ∨ c.toNat = 133 ∨ c.toNat = 160) := by
  simp [goIsSpace]
  tauto

theorem goIsSpace_toUpper (c : Char) (h : goIsSpace c = false) :
    goIsSpace c.toUpper = false := by
  rcases toUpper_cases c with hc | hc
  · rw [hc]; exact h
  · rw [goIsSpace_eq_false_iff]; omega

theorem goIsSpace_toLower (c : Char) (h : goIsSpace c = false) :
    goIsSpace c.toLower = false := by
  rcases toLower_cases c with hc | hc
  · rw [hc]; exact h
  · rw [goIsSpace_eq_false_iff]; omega

theorem toUpper_ne (c d : Char) (hd : d.toNat ≤ 64 ∨ 91 ≤ d.toNat) (h : c ≠ d) :
    c.toUpper ≠ d := by
  rcases toUpper_cases c with hc | hc
  · rw [hc]; exact h
  · intro he
    rw [he] at hc
    omega

theorem toLower_ne (c d : Char) (hd : d.toNat ≤ 96 ∨ 123 ≤ d.toNat) (h : c ≠ d) :
    c.toLower ≠ d := by
  rcases toLower_cases c with hc | hc
  · rw [hc]; exact h
  · intro he
    rw [he] at hc
    omega

/-! goFields machinery. -/

theorem goFieldsAux_nil (f : Nat) : goFieldsAux f [] = [] := by
  cases f <;> rfl

theorem goFieldsAux_fuel :
    ∀ (f1 : Nat) (s : GoStr) (f2 : Nat), s.length ≤ f1 → s.length ≤ f2 →
      goFieldsAux f1 s = goFieldsAux f2 s := by
  intro f1
  induction f1 with
  | zero =>
    intro s f2 h1 _
    have : s = [] := List.length_eq_zero.mp (Nat.le_zero.mp h1)
    subst this
    rw [goFieldsAux_nil, goFieldsAux_nil]
  | succ n IH =>
    intro s f2 h1 h2
    cases s with
    | nil => rw [goFieldsAux_nil, goFieldsAux_nil]
    | cons c cs =>
      cases f2 with
      | zero => simp at h2
      | succ m =>
        simp only [List.length_cons, Nat.succ_le_succ_iff] at h1 h2
        by_cases hc : goIsSpace c
        · simp only [goFieldsAux, hc, if_pos]
          exact IH cs m h1 h2
        · simp only [goFieldsAux, hc, Bool.false_eq_true, if_neg, not_false_iff]
          have hd : (cs.dropWhile (fun d => !goIsSpace d)).length ≤ cs.length :=
            (List.dropWhile_sublist _).length_le
          rw [IH _ m (Nat.le_trans hd h1) (Nat.le_trans hd h2)]

theorem goFields_nil : goFields [] = [] := rfl

theorem goFields_cons_space (c : Char) (cs : GoStr) (h : goIsSpace c = true) :
    goFields (c :: cs) = goFields cs := by
  simp only [goFields, List.length_cons, goFieldsAux, h, if_pos]

theorem goFields_cons_nonspace (c : Char) (cs : GoStr) (h : goIsSpace c = false) :
    goFields (c :: cs) =
      (c :: cs.takeWhile (fun d => !goIsSpace d)) ::
        goFields (cs.dropWhile (fun d => !goIsSpace d)) := by
  simp only [goFields, List.length_cons, goFieldsAux, h, Bool.false_eq_true, if_neg,
    not_false_iff]
  congr 1
  exact goFieldsAux_fuel cs.length _ _ (List.dropWhile_sublist _).length_le (Nat.le_refl _)

theorem goFields_all_space (s : GoStr) (h : ∀ c ∈ s, goIsSpace c = true) :
    goFields s = [] := by
  induction s with
  | nil => rfl
  | cons c cs IH =>
    rw [goFields_cons_space c cs (h c (List.mem_cons_self c cs))]
    exact IH (fun d hd => h d (List.mem_cons_of_mem c hd))

theorem goFields_space_append (s l : GoStr) (h : ∀ c ∈ s, goIsSpace c = true) :
    goFields (s ++ l) = goFields l := by
  induction s with
  | nil => rfl
  | cons c cs IH =>
    rw [List.cons_append, goFields_cons_space c _ (h c (List.mem_cons_self c cs))]
    exact IH (fun d hd => h d (List.mem_cons_of_mem c hd))

theorem takeWhile_append_false (p : Char → Bool) (l s : GoStr)
    (h : ∀ c ∈ s, p c = false) : (l ++ s).takeWhile p = l.takeWhile p := by
  induction l with
  | nil =>
    cases s with
    | nil => rfl
    | cons c cs =>
      simp [List.takeWhile_cons, h c (List.mem_cons_self c cs)]
  | cons a l IH =>
    simp only [List.cons_append, List.takeWhile_cons]
    by_cases ha : p a
    · simp [ha, IH]
    · simp only [Bool.not_eq_true] at ha
      simp [ha]

theorem dropWhile_append_false (p : Char → Bool) (l s : GoStr)
    (h : ∀ c ∈ s, p c = false) : (l ++ s).dropWhile p = l.dropWhile p ++ s := by
  induction l with
  | nil =>
    cases s with
    | nil => simp
    | cons c cs =>
      simp [List.dropWhile_cons, h c (List.mem_cons_self c cs)]
  | cons a l IH =>
    simp only [List.cons_append, List.dropWhile_cons]
    by_cases ha : p a
    · simp [ha, IH]
    · simp only [Bool.not_eq_true] at ha
      simp [ha]

theorem goFields_append_space :
    ∀ (n : Nat) (s tail : GoStr), s.length ≤ n → (∀ c ∈ tail, goIsSpace c = true) →
      goFields (s ++ tail) = goFields s := by
  intro n
  induction n with
  | zero =>
    intro s tail h1 h2
    have : s = [] := List.length_eq_zero.mp (Nat.le_zero.mp h1)
    subst this
    rw [List.nil_append, goFields_nil]
    exact goFields_all_space tail h2
  | succ n IH =>
    intro s tail h1 h2
    cases s with
    | nil =>
      rw [List.nil_append, goFields_nil]
      exact goFields_all_space tail h2
    | cons c cs =>
      simp only [List.length_cons, Nat.succ_le_succ_iff] at h1
      by_cases hc : goIsSpace c
      · rw [List.cons_append, goFields_cons_space c _ hc, goFields_cons_space c cs hc]
        exact IH cs tail h1 h2
      · simp only [Bool.not_eq_true] at hc
        have htail : ∀ d ∈ tail, (fun d => !goIsSpace d) d = false := by
          intro d hd
          simp [h2 d hd]
        rw [List.cons_append, goFields_cons_nonspace c _ hc, goFields_cons_nonspace c cs hc,
          takeWhile_append_false _ cs tail htail, dropWhile_append_false _ cs tail htail]
        congr 1
        exact IH _ tail (Nat.le_trans (List.dropWhile_sublist _).length_le h1) h2

theorem mem_goFields :
    ∀ (n : Nat) (s w : GoStr), s.length ≤ n → w ∈ goFields s →
      w ≠ [] ∧ ∀ c ∈ w, goIsSpace c = false ∧ c ∈ s := by
  intro n
  induction n with
  | zero =>
    intro s w h1 hw
    have : s = [] := List.length_eq_zero.mp (Nat.le_zero.mp h1)
    subst this
    simp [goFields_nil] at hw
  | succ n IH =>
    intro s w h1 hw
    cases s with
    | nil => simp [goFields_nil] at hw
    | cons c cs =>
      simp only [List.length_cons, Nat.succ_le_succ_iff] at h1
      by_cases hc : goIsSpace c
      · rw [goFields_cons_space c cs hc] at hw
        obtain ⟨hne, hall⟩ := IH cs w h1 hw
        exact ⟨hne, fun d hd => ⟨(hall d hd).1, List.mem_cons_of_mem c (hall d hd).2⟩⟩
      · simp only [Bool.not_eq_true] at hc
        rw [goFields_cons_nonspace c cs hc] at hw
        rcases List.mem_cons.mp hw with hw | hw
        · subst hw
          refine ⟨List.cons_ne_nil _ _, ?_⟩
          intro d hd
          rcases List.mem_cons.mp hd with hd | hd
          · subst hd
            exact ⟨hc, List.mem_cons_self _ _⟩
          · have hp := List.mem_takeWhile_imp hd
            simp only [Bool.not_eq_true'] at hp
            exact ⟨hp, List.mem_cons_of_mem c ((List.takeWhile_sublist _).subset hd)⟩
        · obtain ⟨hne, hall⟩ :=
            IH _ w (Nat.le_trans (List.dropWhile_sublist _).length_le h1) hw
          refine ⟨hne, fun d hd => ⟨(hall d hd).1, ?_⟩⟩
          exact List.mem_cons_of_mem c ((List.dropWhile_sublist _).subset (hall d hd).2)

/-! Trim, replacement and join lemmas. -/

theorem reverse_split (u : GoStr) :
    u = (u.reverse.dropWhile goIsSpace).reverse ++ (u.reverse.takeWhile goIsSpace).reverse := by
  rw [← List.reverse_append, List.takeWhile_append_dropWhile, List.reverse_reverse]

theorem trim_decomp (s : GoStr) :
    ∃ lead tail, (∀ c ∈ lead, goIsSpace c = true) ∧ (∀ c ∈ tail, goIsSpace c = true) ∧
      s = lead ++ goTrimSpace s ++ tail := by
  refine ⟨s.takeWhile goIsSpace, ((s.dropWhile goIsSpace).reverse.takeWhile goIsSpace).reverse,
    ?_, ?_, ?_⟩
  · intro c hc
    exact List.mem_takeWhile_imp hc
  · intro c hc
    rw [List.mem_reverse] at hc
    exact List.mem_takeWhile_imp hc
  · conv_lhs => rw [← List.takeWhile_append_dropWhile goIsSpace s]
    rw [List.append_assoc]
    congr 1
    exact reverse_split (s.dropWhile goIsSpace)

theorem replaceChar_append (a b : Char) (s t : GoStr) :
    replaceChar a b (s ++ t) = replaceChar a b s ++ replaceChar a b t :=
  List.map_append _ s t

theorem replaceChar_space (a : Char) (s : GoStr) (h : ∀ c ∈ s, goIsSpace c = true) :
    ∀ c ∈ replaceChar a ' ' s, goIsSpace c = true := by
  intro c hc
  obtain ⟨d, hd, he⟩ := List.mem_map.mp hc
  by_cases hda : d = a
  · rw [← he]
    simp only [hda, if_pos]
    decide
  · rw [← he]
    simp only [hda, if_neg, not_false_iff]
    exact h d hd

theorem mem_replaceSeps (t : GoStr) (c : Char)
    (hc : c ∈ replaceChar '-' ' ' (replaceChar '_' ' ' t)) : c ≠ '_' ∧ c ≠ '-' := by
  obtain ⟨d, hd, he⟩ := List.mem_map.mp hc
  obtain ⟨e, _, hf⟩ := List.mem_map.mp hd
  by_cases hdd : d = '-'
  · rw [← he]
    simp only [hdd, if_pos]
    exact ⟨by decide, by decide⟩
  · rw [← he]
    simp only [hdd, if_neg, not_false_iff]
    refine ⟨?_, hdd⟩
    by_cases hee : e = '_'
    · rw [← hf]
      simp only [hee, if_pos]
      decide
    · rw [← hf]
      simp only [hee, if_neg, not_false_iff]
      exact hee

theorem goJoin_ne_nil (w : GoStr) (ws : List GoStr) (h : w ≠ []) : goJoin (w :: ws) ≠ [] := by
  cases ws with
  | nil => exact h
  | cons x xs =>
    simp only [goJoin]
    intro hco
    exact h (List.append_eq_nil.mp hco).1

theorem mem_goJoin :
    ∀ (ws : List GoStr) (c : Char), c ∈ goJoin ws → c = ' ' ∨ ∃ w ∈ ws, c ∈ w := by
  intro ws
  induction ws with
  | nil => intro c hc; simp [goJoin] at hc
  | cons w ws IH =>
    intro c hc
    cases ws with
    | nil => exact Or.inr ⟨w, List.mem_cons_self _ _, hc⟩
    | cons x xs =>
      simp only [goJoin] at hc
      rcases List.mem_append.mp hc with hc | hc
      · exact Or.inr ⟨w, List.mem_cons_self _ _, hc⟩
      · rcases List.mem_cons.mp hc with hc | hc
        · exact Or.inl hc
        · rcases IH c hc with hc | ⟨w2, hw2, hcw⟩
          · exact Or.inl hc
          · exact Or.inr ⟨w2, List.mem_cons_of_mem _ hw2, hcw⟩

theorem head?_goJoin :
    ∀ (ws : List GoStr), (∀ w ∈ ws, w ≠ []) → ∀ c, (goJoin ws).head? = some c →
      ∃ w ∈ ws, w.head? = some c := by
  intro ws
  induction ws with
  | nil => intro _ c hc; simp [goJoin] at hc
  | cons w ws IH =>
    intro hne c hc
    cases ws with
    | nil => exact ⟨w, List.mem_cons_self _ _, hc⟩
    | cons x xs =>
      simp only [goJoin, List.head?_append] at hc
      cases hw : w.head? with
      | some a =>
        rw [hw] at hc
        simp only [Option.or_some] at hc ⊢
        exact ⟨w, List.mem_cons_self _ _, by rw [hw, hc]⟩
      | none =>
        exact absurd (List.head?_eq_none_iff.mp hw) (hne w (List.mem_cons_self _ _))

theorem getLast?_append_cons (xs : GoStr) (b : Char) (t : GoStr) :
    (xs ++ b :: t).getLast? = (b :: t).getLast? := by
  induction xs with
  | nil => rfl
  | cons a xs IH =>
    cases hx : xs ++ b :: t with
    | nil => exact absurd hx (by simp)
    | cons y ys =>
      rw [List.cons_append, hx, List.getLast?_cons_cons, ← hx, IH]

theorem getLast?_cons_eq_or (a c : Char) (l : GoStr) (h : (a :: l).getLast? = some c) :
    c = a ∨ c ∈ l := by
  cases l with
  | nil =>
    simp only [List.getLast?_singleton, Option.some_inj] at h
    exact Or.inl h.symm
  | cons b t =>
    rw [List.getLast?_cons_cons] at h
    exact Or.inr (List.mem_of_mem_getLast? (by simp [h]))

theorem getLast?_goJoin :
    ∀ (ws : List GoStr), (∀ w ∈ ws, w ≠ []) → ∀ c, (goJoin ws).getLast? = some c →
      ∃ w ∈ ws, w.getLast? = some c := by
  intro ws
  induction ws with
  | nil => intro _ c hc; simp [goJoin] at hc
  | cons w ws IH =>
    intro hne c hc
    cases ws with
    | nil => exact ⟨w, List.mem_cons_self _ _, hc⟩
    | cons x xs =>
      simp only [goJoin] at hc
      rw [getLast?_append_cons] at hc
      have hjoin : goJoin (x :: xs) ≠ [] :=
        goJoin_ne_nil x xs (hne x (List.mem_cons_of_mem _ (List.mem_cons_self _ _)))
      cases hj : goJoin (x :: xs) with
      | nil => exact absurd hj hjoin
      | cons y ys =>
        rw [hj, List.getLast?_cons_cons, ← hj] at hc
        obtain ⟨w2, hw2, hcw⟩ := IH (fun v hv => hne v (List.mem_cons_of_mem _ hv)) c hc
        exact ⟨w2, List.mem_cons_of_mem _ hw2, hcw⟩

theorem goFields_replace_trim (t : GoStr) :
    goFields (replaceChar '-' ' ' (replaceChar '_' ' ' (goTrimSpace t))) =
      goFields (replaceChar '-' ' ' (replaceChar '_' ' ' t)) := by
  obtain ⟨lead, tail, hlead, htail, hdec⟩ := trim_decomp t
  have hlead2 : ∀ c ∈ replaceChar '-' ' ' (replaceChar '_' ' ' lead), goIsSpace c = true :=
    replaceChar_space '-' _ (replaceChar_space '_' lead hlead)
  have htail2 : ∀ c ∈ replaceChar '-' ' ' (replaceChar '_' ' ' tail), goIsSpace c = true :=
    replaceChar_space '-' _ (replaceChar_space '_' tail htail)
  have h1 := goFields_space_append (replaceChar '-' ' ' (replaceChar '_' ' ' lead))
    (replaceChar '-' ' ' (replaceChar '_' ' ' (goTrimSpace t)) ++
      replaceChar '-' ' ' (replaceChar '_' ' ' tail)) hlead2
  have h2 := goFields_append_space
    (replaceChar '-' ' ' (replaceChar '_' ' ' (goTrimSpace t))).length
    (replaceChar '-' ' ' (replaceChar '_' ' ' (goTrimSpace t)))
    (replaceChar '-' ' ' (replaceChar '_' ' ' tail)) (Nat.le_refl _) htail2
  conv_rhs => rw [hdec]
  simp only [replaceChar_append, List.append_assoc]
  rw [h1, h2]

theorem mem_capWord_fields (u w : GoStr) (hw : w ∈ (goFields u).map capWord) :
    w ≠ [] ∧
    (∀ c ∈ w, ∃ d, d ∈ u ∧ goIsSpace d = false ∧ (c = d.toUpper ∨ c = d.toLower)) ∧
    (∀ c, w.head? = some c → ∃ d, d ∈ u ∧ goIsSpace d = false ∧ c = d.toUpper) ∧
    (∀ c, w.getLast? = some c →
      ∃ d, d ∈ u ∧ goIsSpace d = false ∧ (c = d.toUpper ∨ c = d.toLower)) := by
  obtain ⟨w0, hw0, hcap⟩ := List.mem_map.mp hw
  obtain ⟨hne, hchars⟩ := mem_goFields u.length u w0 (Nat.le_refl _) hw0
  cases w0 with
  | nil => exact absurd rfl hne
  | cons c0 rest =>
    have hc0 := hchars c0 (List.mem_cons_self _ _)
    have hrest : ∀ e ∈ rest, goIsSpace e = false ∧ e ∈ u := fun e he =>
      hchars e (List.mem_cons_of_mem _ he)
    subst hcap
    simp only [capWord]
    have hmem : ∀ c, c ∈ rest.map Char.toLower →
        ∃ d, d ∈ u ∧ goIsSpace d = false ∧ (c = d.toUpper ∨ c = d.toLower) := by
      intro c hc
      obtain ⟨e, he, hce⟩ := List.mem_map.mp hc
      exact ⟨e, (hrest e he).2, (hrest e he).1, Or.inr hce.symm⟩
    refine ⟨List.cons_ne_nil _ _, ?_, ?_, ?_⟩
    · intro c hc
      rcases List.mem_cons.mp hc with hc | hc
      · exact ⟨c0, hc0.2, hc0.1, Or.inl hc⟩
      · exact hmem c hc
    · intro c hc
      simp only [List.head?_cons, Option.some_inj] at hc
      exact ⟨c0, hc0.2, hc0.1, hc.symm⟩
    · intro c hc
      rcases getLast?_cons_eq_or _ c _ hc with hc | hc
      · exact ⟨c0, hc0.2, hc0.1, Or.inl hc⟩
      · exact hmem c hc

/-- C7: cleanDisplayName first replaces underscores and hyphens with spaces, then
capitalizes each whitespace-separated word (first rune up, rest down) and joins the
words with single spaces: it equals the untrimmed spec-phrased computation, and its
output contains no underscore or hyphen and has no leading or trailing whitespace. -/
theorem cleanDisplayName_behavior (t : GoStr) :
    cleanDisplayName t = cleanDisplayNameSpec t ∧
    (∀ c ∈ cleanDisplayName t, c ≠ '_' ∧ c ≠ '-') ∧
    (∀ c, (cleanDisplayName t).head? = some c → goIsSpace c = false) ∧
    (∀ c, (cleanDisplayName t).getLast? = some c → goIsSpace c = false) := by
  have heq : cleanDisplayName t = cleanDisplayNameSpec t := by
    unfold cleanDisplayName cleanDisplayNameSpec
    rw [goFields_replace_trim]
  have hform : cleanDisplayName t =
      goJoin ((goFields (replaceChar '-' ' ' (replaceChar '_' ' ' (goTrimSpace t)))).map capWord) :=
    rfl
  set u := replaceChar '-' ' ' (replaceChar '_' ' ' (goTrimSpace t)) with hu
  have hwords : ∀ w ∈ (goFields u).map capWord, w ≠ [] :=
    fun w hw => (mem_capWord_fields u w hw).1
  refine ⟨heq, ?_, ?_, ?_⟩
  · intro c hc
    rw [hform] at hc
    rcases mem_goJoin _ c hc with hc | ⟨w, hwmem, hcw⟩
    · subst hc
      exact ⟨by decide, by decide⟩
    · obtain ⟨d, hdu, _, hcd⟩ := (mem_capWord_fields u w hwmem).2.1 c hcw
      have hd2 := mem_replaceSeps (goTrimSpace t) d hdu
      rcases hcd with h | h
      · subst h
        exact ⟨toUpper_ne d '_' (Or.inr (by decide)) hd2.1,
               toUpper_ne d '-' (Or.inl (by decide)) hd2.2⟩
      · subst h
        exact ⟨toLower_ne d '_' (Or.inl (by decide)) hd2.1,
               toLower_ne d '-' (Or.inl (by decide)) hd2.2⟩
  · intro c hc
    rw [hform] at hc
    obtain ⟨w, hwmem, hwc⟩ := head?_goJoin _ hwords c hc
    obtain ⟨d, _, hdns, hcd⟩ := (mem_capWord_fields u w hwmem).2.2.1 c hwc
    rw [hcd]
    exact goIsSpace_toUpper d hdns
  · intro c hc
    rw [hform] at hc
    obtain ⟨w, hwmem, hwc⟩ := getLast?_goJoin _ hwords c hc
    obtain ⟨d, _, hdns, hcd⟩ := (mem_capWord_fields u w hwmem).2.2.2 c hwc
    rcases hcd with h | h
    · rw [h]; exact goIsSpace_toUpper d hdns
    · rw [h]; exact goIsSpace_toLower d hdns

/-- C7 witness: the theorem applied at the title "ec2_instance", with the head rune
hypothesis discharged at the concrete character E. -/
theorem cleanDisplayName_behavior_witness :
    cleanDisplayName (str "ec2_instance") = cleanDisplayNameSpec (str "ec2_instance") ∧
    goIsSpace 'E' = false :=
  ⟨(cleanDisplayName_behavior (str "ec2_instance")).1,
   (cleanDisplayName_behavior (str "ec2_instance")).2.2.1 'E' (by decide)⟩

/-- C6: generateSlug is deterministic (equal inputs give equal outputs), its value is
the lower-cased provider, a hyphen, and the sanitized title, and everything after the
provider part and the separating hyphen is drawn from [a-z0-9-]. -/
theorem generateSlug_deterministic_charset :
    (∀ p t p2 t2 : GoStr, p = p2 → t = t2 → generateSlug p t = generateSlug p2 t2) ∧
    (∀ p t : GoStr, generateSlug p t = goToLowerStr p ++ '-' :: sanitizeTitle t) ∧
    (∀ t : GoStr, ∀ c ∈ sanitizeTitle t, isSlugChar c = true) := by
  refine ⟨?_, ?_, ?_⟩
  · intro p t p2 t2 hp ht
    rw [hp, ht]
  · intro p t
    rfl
  · intro t c hc
    exact (List.mem_filter.mp hc).2

/-- C6 witness: the theorem applied at provider "AWS" and title "ec2_instance", with
the character hypothesis discharged at the rune e of the sanitized title. -/
theorem generateSlug_deterministic_charset_witness :
    generateSlug (str "AWS") (str "ec2_instance") = generateSlug (str "AWS") (str "ec2_instance") ∧
    isSlugChar 'e' = true :=
  ⟨generateSlug_deterministic_charset.1 (str "AWS") (str "ec2_instance") _ _ rfl rfl,
   generateSlug_deterministic_charset.2.2 (str "ec2_instance") 'e' (by decide)⟩

/-- C1 counterexample: at title "ec2_instance" with provider "AWS" the claimed
end-to-end conjunction is false, because generateSlug deletes the underscore without
inserting a hyphen: the slug is "aws-ec2instance", not "aws-ec2-instance". -/
theorem end_to_end_slug_counterexample :
    ¬(cleanDisplayName (str "ec2_instance") = str "Ec2 Instance" ∧
      generateSlug (str "AWS") (str "ec2_instance") = str "aws-ec2-instance" ∧
      calculatePopularity (str "ec2_instance") = 1 ∧
      getFullProviderName (str "AWS") = str "Amazon Web Services" ∧
      determineDefaultWidth (str "compute") = 64) :=
  fun h => absurd h.2.1 (by decide)

/-- C1 (amended): for input title "ec2_instance" with provider "AWS" the pipeline
produces displayName "Ec2 Instance", slug "aws-ec2instance", popularity 1.0, provider
full name "Amazon Web Services", and default width 64 for any enrichment category
other than network, container, storage and database. -/
theorem end_to_end_example (cat : GoStr)
    (hcat : cat ≠ str "network" ∧ cat ≠ str "container" ∧
      cat ≠ str "storage" ∧ cat ≠ str "database") :
    cleanDisplayName (str "ec2_instance") = str "Ec2 Instance" ∧
    generateSlug (str "AWS") (str "ec2_instance") = str "aws-ec2instance" ∧
    calculatePopularity (str "ec2_instance") = 1 ∧
    getFullProviderName (str "AWS") = str "Amazon Web Services" ∧
    determineDefaultWidth cat = 64 := by
  refine ⟨by decide, by decide, ?_, by decide, ?_⟩
  · rw [calculatePopularity, if_pos (by decide)]
  · unfold determineDefaultWidth
    rw [if_neg (by rintro (h | h); exacts [hcat.1 h, hcat.2.1 h]),
      if_neg (by rintro (h | h); exacts [hcat.2.2.1 h, hcat.2.2.2 h])]

/-- C1 witness: the amended theorem applied at the concrete category "compute". -/
theorem end_to_end_example_witness :
    cleanDisplayName (str "ec2_instance") = str "Ec2 Instance" ∧
    generateSlug (str "AWS") (str "ec2_instance") = str "aws-ec2instance" ∧
    calculatePopularity (str "ec2_instance") = 1 ∧
    getFullProviderName (str "AWS") = str "Amazon Web Services" ∧
    determineDefaultWidth (str "compute") = 64 :=
  end_to_end_example (str "compute") ⟨by decide, by decide, by decide, by decide⟩

/-! JSON round-trip machinery. -/

theorem fromHexDigit_toHexDigit (n : Nat) (h : n < 16) :
    fromHexDigit (toHexDigit n) = some n := by
  interval_cases n <;> decide

theorem hex4Val_toHex4 (n : Nat) (h : n < 65536) :
    hex4Val (toHexDigit (n / 4096 % 16)) (toHexDigit (n / 256 % 16))
      (toHexDigit (n / 16 % 16)) (toHexDigit (n % 16)) = some n := by
  unfold hex4Val
  rw [fromHexDigit_toHexDigit _ (Nat.mod_lt _ (by omega)),
    fromHexDigit_toHexDigit _ (Nat.mod_lt _ (by omega)),
    fromHexDigit_toHexDigit _ (Nat.mod_lt _ (by omega)),
    fromHexDigit_toHexDigit _ (Nat.mod_lt _ (by omega))]
  simp only [Option.some.injEq]
  omega

theorem decode_u_escape (n : Nat) (R : GoStr) (h : n < 55296) :
    decodeStringBody ('\\' :: 'u' :: (toHex4 n ++ R)) =
      (decodeStringBody R).map (fun p => (Char.ofNat n :: p.1, p.2)) := by
  have h4 := hex4Val_toHex4 n (by omega)
  simp only [toHex4, List.cons_append]
  simp +decide [decodeStringBody, h4, h]

theorem decode_encodeChar (c : Char) (R : GoStr) :
    decodeStringBody (encodeChar c ++ R) =
      (decodeStringBody R).map (fun p => (c :: p.1, p.2)) := by
  by_cases h1 : c = '"'
  · subst h1
    have henc : encodeChar '"' = ['\\', '"'] := by decide
    rw [henc, List.cons_append, List.singleton_append]
    conv_lhs => rw [decodeStringBody.eq_def]
    simp +decide
  by_cases h2 : c = '\\'
  · subst h2
    have henc : encodeChar '\\' = ['\\', '\\'] := by decide
    rw [henc, List.cons_append, List.singleton_append]
    conv_lhs => rw [decodeStringBody.eq_def]
    simp +decide
  by_cases h3 : c = '<' ∨ c = '>' ∨ c = '&'
  · have henc : encodeChar c = '\\' :: 'u' :: toHex4 c.toNat := by
      simp [encodeChar, h1, h2, h3]
    have hlt : c.toNat < 55296 := by
      rcases h3 with h | h | h <;> (subst h; decide)
    rw [henc, List.cons_append, List.cons_append, decode_u_escape c.toNat R hlt,
      Char.ofNat_toNat]
  by_cases h4 : c.toNat < 32
  · by_cases h10 : c.toNat = 10
    · have hc : c = Char.ofNat 10 := by rw [← h10, Char.ofNat_toNat]
      subst hc
      have henc : encodeChar (Char.ofNat 10) = ['\\', 'n'] := by decide
      rw [henc, List.cons_append, List.singleton_append]
      conv_lhs => rw [decodeStringBody.eq_def]
      simp +decide
    by_cases h13 : c.toNat = 13
    · have hc : c = Char.ofNat 13 := by rw [← h13, Char.ofNat_toNat]
      subst hc
      have henc : encodeChar (Char.ofNat 13) = ['\\', 'r'] := by decide
      rw [henc, List.cons_append, List.singleton_append]
      conv_lhs => rw [decodeStringBody.eq_def]
      simp +decide
    by_cases h9 : c.toNat = 9
    · have hc : c = Char.ofNat 9 := by rw [← h9, Char.ofNat_toNat]
      subst hc
      have henc : encodeChar (Char.ofNat 9) = ['\\', 't'] := by decide
      rw [henc, List.cons_append, List.singleton_append]
      conv_lhs => rw [decodeStringBody.eq_def]
      simp +decide
    · have henc : encodeChar c = '\\' :: 'u' :: toHex4 c.toNat := by
        simp [encodeChar, h1, h2, h3, h4, h10, h13, h9]
      rw [henc, List.cons_append, List.cons_append,
        decode_u_escape c.toNat R (by omega), Char.ofNat_toNat]
  by_cases h5 : c.toNat = 8232 ∨ c.toNat = 8233
  · have henc : encodeChar c = '\\' :: 'u' :: toHex4 c.toNat := by
      simp [encodeChar, h1, h2, h3, h4, h5]
    rw [henc, List.cons_append, List.cons_append,
      decode_u_escape c.toNat R (by omega), Char.ofNat_toNat]
  · have henc : encodeChar c = [c] := by
      simp [encodeChar, h1, h2, h3, h4, h5]
    rw [henc, List.singleton_append]
    conv_lhs => rw [decodeStringBody.eq_def]
    simp [h1, h2]

theorem decodeStringBody_enc (s : GoStr) :
    ∀ rest, decodeStringBody (s.flatMap encodeChar ++ '"' :: rest) = some (s, rest) := by
  induction s with
  | nil =>
    intro rest
    simp only [List.flatMap_nil, List.nil_append]
    conv_lhs => rw [decodeStringBody.eq_def]
    simp
  | cons c t IH =>
    intro rest
    rw [List.flatMap_cons, List.append_assoc, decode_encodeChar, IH]
    rfl

theorem decodeElemsF_enc :
    ∀ (l : List GoStr), l ≠ [] → ∀ (fuel : Nat) (rest : GoStr), l.length ≤ fuel →
      decodeElemsF fuel (encodeElems l ++ ']' :: rest) = some (l, rest) := by
  intro l
  induction l with
  | nil => intro h; exact absurd rfl h
  | cons x xs IH =>
    intro _ fuel rest hlen
    cases fuel with
    | zero => simp at hlen
    | succ f =>
      cases xs with
      | nil =>
        show decodeElemsF (f + 1) (encodeString x ++ ']' :: rest) = some ([x], rest)
        simp only [encodeString, List.cons_append, List.append_assoc, List.singleton_append]
        simp [decodeElemsF, decodeStringBody_enc x (']' :: rest)]
      | cons y ys =>
        show decodeElemsF (f + 1)
          ((encodeString x ++ ',' :: encodeElems (y :: ys)) ++ ']' :: rest) = _
        simp only [encodeString, List.cons_append, List.append_assoc, List.singleton_append]
        have hrec := IH (List.cons_ne_nil y ys) f rest (by
          simp only [List.length_cons] at hlen ⊢
          omega)
        simp [decodeElemsF, decodeStringBody_enc x (',' :: (encodeElems (y :: ys) ++ ']' :: rest)),
          hrec]

theorem length_le_encodeElems : ∀ l : List GoStr, l.length ≤ (encodeElems l).length := by
  intro l
  induction l with
  | nil => simp [encodeElems]
  | cons x xs IH =>
    cases xs with
    | nil => simp [encodeElems, encodeString]
    | cons y ys =>
      simp only [encodeElems, encodeString, List.length_cons, List.length_append,
        List.cons_append, List.length_singleton] at IH ⊢
      omega

/-- C8: arrayToJSON returns exactly "[]" on the empty list, and on every non-empty
list of strings its output is a JSON array that an honest JSON string-array decoder
parses back to the original list (decoding is a left inverse of encoding). -/
theorem arrayToJSON_roundtrip :
    arrayToJSON [] = str "[]" ∧
    ∀ l : List GoStr, l ≠ [] → decodeArray (arrayToJSON l) = some l := by
  refine ⟨rfl, ?_⟩
  intro l hl
  cases l with
  | nil => exact absurd rfl hl
  | cons x xs =>
    have harr : arrayToJSON (x :: xs) = '[' :: encodeElems (x :: xs) ++ [']'] := by
      simp [arrayToJSON]
    have hlen1 : (x :: xs).length ≤ (encodeElems (x :: xs)).length :=
      length_le_encodeElems (x :: xs)
    have hne2 : ('[' :: encodeElems (x :: xs) ++ [']'] : GoStr) ≠ str "[]" := by
      intro he
      have hlen := congrArg List.length he
      have h2 : (str "[]").length = 2 := by decide
      simp only [List.cons_append, List.length_cons, List.length_append,
        List.length_singleton, h2] at hlen
      simp only [List.length_cons] at hlen1
      omega
    rw [harr]
    unfold decodeArray
    rw [if_neg hne2]
    have henc : encodeElems (x :: xs) ++ [']'] = encodeElems (x :: xs) ++ ']' :: [] := rfl
    simp only [List.cons_append]
    rw [henc, decodeElemsF_enc (x :: xs) (List.cons_ne_nil x xs) _ []
      (by
        simp only [List.length_append, List.length_cons]
        simp only [List.length_cons] at hlen1
        omega)]
    simp

/-- C8 witness: the round trip evaluated at the two-element list of the spec
example. -/
theorem arrayToJSON_roundtrip_witness :
    decodeArray (arrayToJSON [str "a", str "b"]) = some [str "a", str "b"] :=
  arrayToJSON_roundtrip.2 [str "a", str "b"] (by decide)

/-- C3: for a non-empty chunk, every failure path of batchEnrichIcons (serialization,
request construction, transport, non-200 status, body decode) yields a slice of
zero-valued enrichment results whose length equals the chunk length, and at most one
HTTP request is issued (no retry). -/
theorem batchEnrich_failure_fallback (pending : List PendingIcon) (env : BatchEnv)
    (_hne : pending ≠ [])
    (hfail : env.marshalOk = false ∨ env.requestOk = false ∨
      env.http = BatchHttp.transportErr ∨
      (∃ st body, env.http = BatchHttp.response st body ∧ st ≠ 200) ∨
      (∃ st, env.http = BatchHttp.response st none)) :
    (batchEnrichIcons pending env).1 = List.replicate pending.length zeroEnrichment ∧
    (batchEnrichIcons pending env).1.length = pending.length ∧
    (batchEnrichIcons pending env).2 ≤ 1 := by
  have h1 : (batchEnrichIcons pending env).1 = List.replicate pending.length zeroEnrichment := by
    unfold batchEnrichIcons
    by_cases hm : env.marshalOk = false
    · simp [hm]
    · by_cases hr : env.requestOk = false
      · simp [hm, hr]
      · rcases hfail with h | h | h | ⟨st, body, hh, hst⟩ | ⟨st, hh⟩
        · exact absurd h hm
        · exact absurd h hr
        · simp [hm, hr, h]
        · simp [hm, hr, hh, hst]
        · by_cases h200 : st = 200
          · subst h200
            simp [hm, hr, hh]
          · simp [hm, hr, hh, h200]
  have h3 : (batchEnrichIcons pending env).2 ≤ 1 := by
    unfold batchEnrichIcons
    by_cases hm : env.marshalOk = false
    · simp [hm]
    · by_cases hr : env.requestOk = false
      · simp [hm, hr]
      · cases hh : env.http with
        | transportErr => simp [hm, hr, hh]
        | response st body =>
          by_cases hst : st = 200
          · cases body with
            | none => simp [hm, hr, hh, hst]
            | some resp => simp [hm, hr, hh, hst]
          · simp [hm, hr, hh, hst]
  exact ⟨h1, by rw [h1, List.length_replicate], h3⟩

/-- C3 witness: the theorem applied to a one-icon chunk with a failing serialization
environment. -/
theorem batchEnrich_failure_fallback_witness :
    (batchEnrichIcons [samplePending] sampleBatchEnvFail).1 =
      List.replicate ([samplePending] : List PendingIcon).length zeroEnrichment ∧
    (batchEnrichIcons [samplePending] sampleBatchEnvFail).1.length =
      ([samplePending] : List PendingIcon).length ∧
    (batchEnrichIcons [samplePending] sampleBatchEnvFail).2 ≤ 1 :=
  batchEnrich_failure_fallback [samplePending] sampleBatchEnvFail
    (List.cons_ne_nil _ _) (Or.inl rfl)

/-! Chunking machinery for the batch loop. -/

theorem batchChunksAux_nil {α : Type} (f : Nat) : batchChunksAux f ([] : List α) = [] := by
  cases f <;> rfl

theorem batchChunksAux_fuel {α : Type} :
    ∀ (f1 : Nat) (l : List α) (f2 : Nat), l.length ≤ f1 → l.length ≤ f2 →
      batchChunksAux f1 l = batchChunksAux f2 l := by
  intro f1
  induction f1 with
  | zero =>
    intro l f2 h1 _
    have : l = [] := List.length_eq_zero.mp (Nat.le_zero.mp h1)
    subst this
    rw [batchChunksAux_nil, batchChunksAux_nil]
  | succ n IH =>
    intro l f2 h1 h2
    cases l with
    | nil => rw [batchChunksAux_nil, batchChunksAux_nil]
    | cons c cs =>
      cases f2 with
      | zero => simp at h2
      | succ m =>
        simp only [List.length_cons, Nat.succ_le_succ_iff] at h1 h2
        simp only [batchChunksAux]
        congr 1
        apply IH
        · simp only [List.length_drop, List.length_cons, batchSize]
          omega
        · simp only [List.length_drop, List.length_cons, batchSize]
          omega

theorem batchChunks_nil {α : Type} : batchChunks ([] : List α) = [] := rfl

theorem batchChunks_cons {α : Type} (l : List α) (h : l ≠ []) :
    batchChunks l = l.take batchSize :: batchChunks (l.drop batchSize) := by
  cases l with
  | nil => exact absurd rfl h
  | cons c cs =>
    show batchChunksAux (cs.length + 1) (c :: cs) = _
    simp only [batchChunksAux]
    congr 1
    apply batchChunksAux_fuel
    · simp only [List.length_drop, List.length_cons, batchSize]
      omega
    · exact Nat.le_refl _

theorem batchChunks_ne_nil_of_arg {α : Type} (l : List α) (h : batchChunks l ≠ []) :
    l ≠ [] := by
  intro hl
  subst hl
  exact h batchChunks_nil

theorem batchChunks_length {α : Type} :
    ∀ (n : Nat) (l : List α), l.length ≤ n →
      (batchChunks l).length = (l.length + 4) / 5 := by
  intro n
  induction n with
  | zero =>
    intro l h
    have : l = [] := List.length_eq_zero.mp (Nat.le_zero.mp h)
    subst this
    simp [batchChunks_nil]
  | succ n IH =>
    intro l h
    cases l with
    | nil => simp [batchChunks_nil]
    | cons c cs =>
      rw [batchChunks_cons (c :: cs) (List.cons_ne_nil c cs)]
      simp only [List.length_cons] at h
      rw [List.length_cons,
        IH ((c :: cs).drop batchSize)
          (by simp only [List.length_drop, List.length_cons, batchSize]; omega)]
      simp only [List.length_drop, List.length_cons, batchSize]
      omega

theorem batchChunks_flatten {α : Type} :
    ∀ (n : Nat) (l : List α), l.length ≤ n → (batchChunks l).flatten = l := by
  intro n
  induction n with
  | zero =>
    intro l h
    have : l = [] := List.length_eq_zero.mp (Nat.le_zero.mp h)
    subst this
    rfl
  | succ n IH =>
    intro l h
    cases l with
    | nil => rfl
    | cons c cs =>
      rw [batchChunks_cons (c :: cs) (List.cons_ne_nil c cs), List.flatten_cons,
        IH ((c :: cs).drop batchSize)
          (by simp only [List.length_drop, List.length_cons, batchSize] at h ⊢; omega)]
      exact List.take_append_drop _ _

theorem batchChunks_dropLast_length {α : Type} :
    ∀ (n : Nat) (l : List α), l.length ≤ n →
      ∀ c ∈ (batchChunks l).dropLast, c.length = 5 := by
  intro n
  induction n with
  | zero =>
    intro l h c hc
    have : l = [] := List.length_eq_zero.mp (Nat.le_zero.mp h)
    subst this
    simp [batchChunks_nil] at hc
  | succ n IH =>
    intro l h c hc
    cases l with
    | nil => simp [batchChunks_nil] at hc
    | cons a cs =>
      rw [batchChunks_cons (a :: cs) (List.cons_ne_nil a cs)] at hc
      by_cases hrest : batchChunks ((a :: cs).drop batchSize) = []
      · rw [hrest] at hc
        simp at hc
      · rw [List.dropLast_cons_of_ne_nil hrest] at hc
        rcases List.mem_cons.mp hc with hc | hc
        · subst hc
          have hd : (a :: cs).drop batchSize ≠ [] :=
            batchChunks_ne_nil_of_arg _ hrest
          have hlen : 5 < (a :: cs).length := by
            by_contra hlen
            exact hd (List.drop_eq_nil_of_le (by simp only [batchSize]; omega))
          rw [List.length_take]
          simp only [batchSize]
          omega
        · exact IH ((a :: cs).drop batchSize)
            (by simp only [List.length_drop, List.length_cons, batchSize] at h ⊢; omega) c hc

theorem batchChunks_mem {α : Type} :
    ∀ (n : Nat) (l : List α), l.length ≤ n →
      ∀ c ∈ batchChunks l, c ≠ [] ∧ c.length ≤ 5 := by
  intro n
  induction n with
  | zero =>
    intro l h c hc
    have : l = [] := List.length_eq_zero.mp (Nat.le_zero.mp h)
    subst this
    simp [batchChunks_nil] at hc
  | succ n IH =>
    intro l h c hc
    cases l with
    | nil => simp [batchChunks_nil] at hc
    | cons a cs =>
      rw [batchChunks_cons (a :: cs) (List.cons_ne_nil a cs)] at hc
      rcases List.mem_cons.mp hc with hc | hc
      · subst hc
        constructor
        · show (a :: cs).take batchSize ≠ []
          simp only [batchSize, List.take_succ_cons]
          exact List.cons_ne_nil _ _
        · rw [List.length_take]
          simp only [batchSize]
          omega
      · exact IH ((a :: cs).drop batchSize)
          (by simp only [List.length_drop, List.length_cons, batchSize] at h ⊢; omega) c hc

/-- C4: the batch loop of Generate with batch size 5 visits exactly ceil(N/5)
chunks (issuing one batchEnrichIcons request per chunk), the chunks are contiguous,
non-overlapping slices of the input in input order whose concatenation is the whole
input, every chunk except possibly the last has length exactly 5, and every chunk
is non-empty with length at most 5. -/
theorem batch_chunking_properties (pending : List PendingIcon) :
    (batchChunks pending).length = (pending.length + 4) / 5 ∧
    (batchChunks pending).flatten = pending ∧
    (∀ c ∈ (batchChunks pending).dropLast, c.length = 5) ∧
    (∀ c ∈ batchChunks pending, c ≠ [] ∧ c.length ≤ 5) :=
  ⟨batchChunks_length pending.length pending (Nat.le_refl _),
   batchChunks_flatten pending.length pending (Nat.le_refl _),
   batchChunks_dropLast_length pending.length pending (Nat.le_refl _),
   batchChunks_mem pending.length pending (Nat.le_refl _)⟩

/-- C4 witness: a seven-icon list splits into a chunk of five and a chunk of two,
and the theorem applied to it bounds the non-final chunk at the concrete first
chunk. -/
theorem batch_chunking_properties_witness :
    (batchChunks (List.replicate 7 samplePending)).length = 2 ∧
    (batchChunks (List.replicate 7 samplePending)).flatten = List.replicate 7 samplePending ∧
    (List.replicate 5 samplePending).length = 5 := by
  have h := batch_chunking_properties (List.replicate 7 samplePending)
  refine ⟨?_, h.2.1, ?_⟩
  · rw [h.1]
    decide
  · exact h.2.2.1 (List.replicate 5 samplePending) (by decide)

/-! Query-chain lemmas for verifyIconifyID. -/

theorem tryQueries_cons_hit (search : GoStr → Option IconifySearchResult) (q : GoStr)
    (qs : List GoStr) (r : IconifySearchResult) (i : GoStr) (rest2 : List GoStr)
    (hq : search q = some r) (hicons : r.icons = i :: rest2) (htotal : 0 < r.total) :
    tryQueries search (q :: qs) = some i := by
  simp [tryQueries, hq, hicons, htotal]

theorem tryQueries_cons_noHit (search : GoStr → Option IconifySearchResult) (q : GoStr)
    (qs : List GoStr) (h : noHit search q) :
    tryQueries search (q :: qs) = tryQueries search qs := by
  rcases h with h | ⟨r, hr, hcase⟩
  · simp [tryQueries, h]
  · rcases hcase with htot | hicons
    · simp only [tryQueries, hr]
      cases hi : r.icons with
      | nil => rfl
      | cons i rest2 =>
        have hnlt : ¬(0 < r.total) := by omega
        simp [hnlt]
    · simp [tryQueries, hr, hicons]

/-- C5: verifyIconifyID tries the queries "provider title", title, slug in that
order, returns the first icon of the first response reporting a positive total and a
non-empty icon list, and when all three queries fail or report no hit it returns
"logos:" followed by the lower-cased provider, a hyphen and the sanitized title
(spaces to hyphens, lower-cased, everything outside [a-z0-9-] removed). -/
theorem verifyIconifyID_spec (search : GoStr → Option IconifySearchResult)
    (provider title slug : GoStr) :
    (∀ r i rest2, search (provider ++ ' ' :: title) = some r → r.icons = i :: rest2 →
      0 < r.total → verifyIconifyID search provider title slug = i) ∧
    (noHit search (provider ++ ' ' :: title) →
      ∀ r i rest2, search title = some r → r.icons = i :: rest2 → 0 < r.total →
        verifyIconifyID search provider title slug = i) ∧
    (noHit search (provider ++ ' ' :: title) → noHit search title →
      ∀ r i rest2, search slug = some r → r.icons = i :: rest2 → 0 < r.total →
        verifyIconifyID search provider title slug = i) ∧
    (noHit search (provider ++ ' ' :: title) → noHit search title → noHit search slug →
      verifyIconifyID search provider title slug =
        str "logos:" ++ goToLowerStr provider ++ '-' :: sanitizeTitle title ∧
      ∀ c ∈ sanitizeTitle title, isSlugChar c = true) := by
  refine ⟨?_, ?_, ?_, ?_⟩
  · intro r i rest2 hq hicons htotal
    unfold verifyIconifyID
    rw [tryQueries_cons_hit search _ _ r i rest2 hq hicons htotal]
  · intro h1 r i rest2 hq hicons htotal
    unfold verifyIconifyID
    rw [tryQueries_cons_noHit search _ _ h1,
      tryQueries_cons_hit search _ _ r i rest2 hq hicons htotal]
  · intro h1 h2 r i rest2 hq hicons htotal
    unfold verifyIconifyID
    rw [tryQueries_cons_noHit search _ _ h1, tryQueries_cons_noHit search _ _ h2,
      tryQueries_cons_hit search _ _ r i rest2 hq hicons htotal]
  · intro h1 h2 h3
    constructor
    · unfold verifyIconifyID
      rw [tryQueries_cons_noHit search _ _ h1, tryQueries_cons_noHit search _ _ h2,
        tryQueries_cons_noHit search _ _ h3]
      rfl
    · intro c hc
      exact (List.mem_filter.mp hc).2

/-- C5 witness: the first query hits, so the first icon of its response is
returned. -/
theorem verifyIconifyID_spec_witness :
    verifyIconifyID searchHitAws (str "AWS") (str "ec2") (str "aws-ec2") =
      str "logos:aws-ec2" :=
  (verifyIconifyID_spec searchHitAws (str "AWS") (str "ec2") (str "aws-ec2")).1
    { icons := [str "logos:aws-ec2"], total := 3 } (str "logos:aws-ec2") []
    (by decide) rfl (by decide)

/-- C2: when LLM enrichment is disabled or the health check failed (so
llmServiceAvailable is false), every payload produced by the
enrichment-and-assembly phase of Generate is built by createIconPayload from the
zero enrichment: its aliases and tags are "[]", its semantic profile and technical
intent are empty, isContainer is false and therefore iconPosition is "center". -/
theorem generate_unavailable_zero_fields (env : GenEnv) (pending : List PendingIcon)
    (h : env.useLLMEnrichment = false ∨ env.llmServiceAvailable = false) :
    ∀ icon ∈ generatePayloads env pending,
      icon.aliases = str "[]" ∧ icon.tags = str "[]" ∧ icon.semanticProfile = [] ∧
      icon.technicalIntent = [] ∧ icon.isContainer = false ∧
      icon.iconPosition = str "center" := by
  intro icon hicon
  have hcond : (env.useLLMEnrichment && env.llmServiceAvailable && env.useBatchProcessing)
      = false := by
    rcases h with h | h <;> simp [h]
  have hcond2 : (env.useLLMEnrichment && env.llmServiceAvailable) = false := by
    rcases h with h | h <;> simp [h]
  unfold generatePayloads at hicon
  simp only [hcond, Bool.false_eq_true, if_false] at hicon
  obtain ⟨np, _, hcreate⟩ := List.mem_map.mp hicon
  simp only [hcond2, Bool.false_eq_true, if_false] at hcreate
  subst hcreate
  exact ⟨rfl, rfl, rfl, rfl, rfl, rfl⟩

/-- C2 witness: the theorem applied to a run with enrichment disabled and one
pending icon, instantiated at the payload that run produces. -/
theorem generate_unavailable_zero_fields_witness :
    sampleZeroIcon.aliases = str "[]" ∧ sampleZeroIcon.tags = str "[]" ∧
    sampleZeroIcon.semanticProfile = [] ∧ sampleZeroIcon.technicalIntent = [] ∧
    sampleZeroIcon.isContainer = false ∧ sampleZeroIcon.iconPosition = str "center" :=
  generate_unavailable_zero_fields sampleEnv [samplePending] (Or.inl rfl) sampleZeroIcon
    (by decide)

/-! Identity-stream lemmas for the uniqueness invariant. -/

theorem map_id_assembleChunk (env : GenEnv) (start : Nat) (chunk : List PendingIcon)
    (es : List LLMEnrichmentResponse) :
    (assembleChunk env start chunk es).map IconPayload.id =
      (List.range chunk.length).map (fun j => env.ids (start + j)) := by
  unfold assembleChunk
  rw [List.map_map]
  have hcomp : (IconPayload.id ∘ fun jp : Nat × PendingIcon =>
      createIconPayload env.search (env.ids (start + jp.1)) jp.2.category jp.2.title
        jp.2.link jp.2.displayName (es.getD jp.1 zeroEnrichment) env.timestamp) =
      (fun j : Nat => env.ids (start + j)) ∘ Prod.fst := rfl
  rw [hcomp, ← List.map_map, List.enum_map_fst]

theorem map_id_assembleBatches (env : GenEnv) :
    ∀ (cs : List (List PendingIcon)) (start : Nat),
      (assembleBatches env start cs).map IconPayload.id =
        (List.range' start (cs.map List.length).sum).map env.ids := by
  intro cs
  induction cs with
  | nil =>
    intro start
    simp [assembleBatches]
  | cons c cs IH =>
    intro start
    simp only [assembleBatches, List.map_append, List.map_cons, List.sum_cons]
    rw [map_id_assembleChunk, IH]
    have h1 : (List.range' start c.length).map env.ids =
        (List.range c.length).map (fun j => env.ids (start + j)) := by
      rw [List.range'_eq_map_range, List.map_map]
      rfl
    rw [← h1, ← List.map_append]
    congr 1
    have h2 := List.range'_append start c.length ((cs.map List.length).sum) 1
    simp only [Nat.one_mul, Nat.mul_one] at h2
    rw [Nat.add_comm c.length ((cs.map List.length).sum), ← h2]

theorem map_id_generatePayloads (env : GenEnv) (pending : List PendingIcon) :
    (generatePayloads env pending).map IconPayload.id =
      (List.range pending.length).map env.ids := by
  unfold generatePayloads
  by_cases hc : (env.useLLMEnrichment && env.llmServiceAvailable && env.useBatchProcessing)
      = true
  · rw [if_pos hc, map_id_assembleBatches]
    have hsum : ((batchChunks pending).map List.length).sum = pending.length := by
      rw [← List.length_flatten, batchChunks_flatten pending.length pending (Nat.le_refl _)]
    rw [hsum, ← List.range_eq_range']
  · rw [if_neg hc, List.map_map]
    have hcomp : (IconPayload.id ∘ fun np : Nat × PendingIcon =>
        createIconPayload env.search (env.ids np.1) np.2.category np.2.title np.2.link
          np.2.displayName
          (if env.useLLMEnrichment && env.llmServiceAvailable then env.singleEnrich np.2
           else zeroEnrichment)
          env.timestamp) = env.ids ∘ Prod.fst := rfl
    rw [hcomp, ← List.map_map, List.enum_map_fst]

/-- C9: with an injective uuid stream (uuid.New repeating nowhere within the run),
the IDs of the payloads of one Generate run are pairwise distinct, while the slug
of a payload depends only on provider and title, so two distinct icons sharing
provider and title carry equal slugs (collisions are accepted). -/
theorem generate_ids_unique (env : GenEnv) (pending : List PendingIcon)
    (hinj : Function.Injective env.ids) :
    ((generatePayloads env pending).map IconPayload.id).Nodup ∧
    (∀ (search : GoStr → Option IconifySearchResult) (id1 id2 provider title link1 link2
        dn1 dn2 : GoStr) (e1 e2 : LLMEnrichmentResponse) (ts1 ts2 : GoStr),
      (createIconPayload search id1 provider title link1 dn1 e1 ts1).slug =
        (createIconPayload search id2 provider title link2 dn2 e2 ts2).slug) := by
  refine ⟨?_, fun _ _ _ _ _ _ _ _ _ _ _ _ _ => rfl⟩
  rw [map_id_generatePayloads]
  exact List.Nodup.map hinj (List.nodup_range _)

/-- C9 witness: a two-icon run of the sample environment, whose replicate-based
uuid stream is injective because the lengths of its values differ. -/
theorem generate_ids_unique_witness :
    ((generatePayloads sampleEnv [samplePending, samplePending]).map IconPayload.id).Nodup :=
  (generate_ids_unique sampleEnv [samplePending, samplePending]
    (fun a b hab => by simpa [sampleEnv] using congrArg List.length hab)).1

/-- C10: in the batch branch, chunk assembly pairs position j of the chunk with
enrichment result j when j is within the result slice and with the zero enrichment
otherwise; the output has exactly one payload per pending icon of the chunk, and
results beyond the chunk length are ignored, so no index is ever out of range. -/
theorem batch_assembly_index_safety (env : GenEnv) (start : Nat)
    (chunk : List PendingIcon) (enrichments : List LLMEnrichmentResponse) :
    (assembleChunk env start chunk enrichments).length = chunk.length ∧
    (∀ j p, chunk[j]? = some p →
      (assembleChunk env start chunk enrichments)[j]? =
        some (createIconPayload env.search (env.ids (start + j)) p.category p.title p.link
          p.displayName
          (if hj : j < enrichments.length then enrichments.get ⟨j, hj⟩ else zeroEnrichment)
          env.timestamp)) ∧
    assembleChunk env start chunk (enrichments.take chunk.length) =
      assembleChunk env start chunk enrichments := by
  refine ⟨?_, ?_, ?_⟩
  · unfold assembleChunk
    rw [List.length_map, List.enum_length]
  · intro j p hjp
    have hgetD : enrichments.getD j zeroEnrichment =
        if hj : j < enrichments.length then enrichments.get ⟨j, hj⟩ else zeroEnrichment := by
      by_cases hj : j < enrichments.length
      · rw [dif_pos hj, List.getD_eq_getElem?_getD, List.getElem?_eq_getElem hj]
        rfl
      · rw [dif_neg hj, List.getD_eq_getElem?_getD,
          List.getElem?_eq_none (Nat.le_of_not_lt hj)]
        rfl
    unfold assembleChunk
    rw [List.getElem?_map, List.getElem?_enum, hjp]
    simp only [Option.map_some']
    rw [hgetD]
  · unfold assembleChunk
    apply List.map_congr_left
    intro jp hjp
    have hlt : jp.1 < chunk.length := by
      obtain ⟨n, hn⟩ := List.mem_iff_getElem?.mp hjp
      rw [List.getElem?_enum] at hn
      cases hc : chunk[n]? with
      | none => rw [hc] at hn; exact absurd hn (by simp)
      | some q =>
        rw [hc] at hn
        simp only [Option.map_some', Option.some_inj] at hn
        have := List.getElem?_eq_some.mp hc
        rw [← hn]
        exact this.1
    have htake : (enrichments.take chunk.length).getD jp.1 zeroEnrichment =
        enrichments.getD jp.1 zeroEnrichment := by
      rw [List.getD_eq_getElem?_getD, List.getD_eq_getElem?_getD,
        List.getElem?_take_of_lt hlt]
    rw [htake]

/-- C10 witness: a one-icon chunk assembled against a two-element result slice uses
result 0 and ignores the surplus result. -/
theorem batch_assembly_index_safety_witness :
    (assembleChunk sampleEnv 0 [samplePending] [sampleEnrichment, sampleEnrichment])[0]? =
      some (createIconPayload sampleEnv.search (sampleEnv.ids (0 + 0)) samplePending.category
        samplePending.title samplePending.link samplePending.displayName
        (if hj : 0 < ([sampleEnrichment, sampleEnrichment] : List LLMEnrichmentResponse).length
          then ([sampleEnrichment, sampleEnrichment] : List LLMEnrichmentResponse).get ⟨0, hj⟩
          else zeroEnrichment)
        sampleEnv.timestamp) :=
  (batch_assembly_index_safety sampleEnv 0 [samplePending]
    [sampleEnrichment, sampleEnrichment]).2.1 0 samplePending rfl

end IconsData
